import Mathlib

/-!
RISC-V atomic counter primitives (`arch/riscv/include/asm/atomic.h`).

A shallow embedding of the atomic operations of the header:

* the critical-section engine (`ATOMIC_OP`, `arch_atomic_fetch_add`,
  `ATOMIC_FETCH_OP` and the operations derived from them), written in C, and
* the conditional-update engine (`_arch_atomic_fetch_add_unless`,
  `_arch_atomic_inc_unless_negative`, `_arch_atomic_dec_unless_positive`,
  `_arch_atomic_dec_if_positive`), written in inline assembly.

Machine integers are mathematical integers that are reduced to their
two's-complement range explicitly.  C arithmetic on `int` wraps (the kernel is
built with `-fno-strict-overflow`).  Inline assembly is embedded instruction by
instruction and run by a small interpreter over the registers bound to the
operands of the `asm` statement.
-/

namespace RiscvAtomic

/-! ## Machine integers -/

/-- Reinterpretation of an integer as a signed two's-complement value of `w` bits. -/
def sext (w : Nat) (x : Int) : Int :=
  (x + 2 ^ (w - 1)) % 2 ^ w - 2 ^ (w - 1)

/-- Conversion to the C type `int` (32 bits). -/
def to_int (x : Int) : Int := sext 32 x

/-- Conversion to the C type `s64` (64 bits). -/
def to_s64 (x : Int) : Int := sext 64 x

/-- The values of the C type `int`. -/
def is_int (x : Int) : Prop := -2147483648 ≤ x ∧ x ≤ 2147483647

instance (x : Int) : Decidable (is_int x) := by
  unfold is_int; infer_instance

/-- The values of the C type `s64`. -/
def is_s64 (x : Int) : Prop := -9223372036854775808 ≤ x ∧ x ≤ 9223372036854775807

instance (x : Int) : Decidable (is_s64 x) := by
  unfold is_s64; infer_instance

/-- `INT_MIN`. -/
def INT_MIN : Int := -2147483648

/-- `INT_MAX`. -/
def INT_MAX : Int := 2147483647

/-- The C expression `a + b` on `int` operands. -/
def int_add (a b : Int) : Int := to_int (a + b)

/-- The C expression `a - b` on `int` operands. -/
def int_sub (a b : Int) : Int := to_int (a - b)

/-- The C expression `-a` on an `int` operand. -/
def int_neg (a : Int) : Int := to_int (-a)

/-- The C expression `a & b` on `int` operands. -/
def int_and (a b : Int) : Int := Int.land a b

/-- The C expression `a | b` on `int` operands. -/
def int_or (a b : Int) : Int := Int.lor a b

/-- The C expression `a ^ b` on `int` operands. -/
def int_xor (a b : Int) : Int := Int.xor a b

/-! ## The counter and the interrupt-enable state of the executing hart -/

/-- The counter an operation is applied to (`v->counter`), together with the
interrupt-enable state of the hart that runs the operation. -/
structure State where
  counter : Int
  irq_enabled : Bool
deriving DecidableEq, Repr

/-- Modelled from the spec: `raw_local_irq_save` of `linux/irqflags.h`, which is
not among the sources.  It saves the interrupt-enable state of the current
execution context and masks interrupts. -/
def raw_local_irq_save (s : State) : Bool × State :=
  (s.irq_enabled, { s with irq_enabled := false })

/-- Modelled from the spec: `raw_local_save_flags` of `linux/irqflags.h`, which
is not among the sources.  It is the saving half of "save and mask": it reads the
interrupt-enable state of the current execution context and, as its name says and
unlike `raw_local_irq_save`, does not mask. -/
def raw_local_save_flags (s : State) : Bool :=
  s.irq_enabled

/-- Modelled from the spec: `raw_local_irq_restore` of `linux/irqflags.h`, which
is not among the sources.  It restores the saved interrupt-enable state. -/
def raw_local_irq_restore (flags : Bool) (s : State) : State :=
  { s with irq_enabled := flags }

/-! ## Plain read and write -/

/-- `arch_atomic_read`: `READ_ONCE(v->counter)`. -/
def arch_atomic_read (v : State) : Int :=
  v.counter

/-- `arch_atomic_set`: `WRITE_ONCE(v->counter, i)`. -/
def arch_atomic_set (v : State) (i : Int) : State :=
  { v with counter := i }

/-- `arch_atomic64_read`: `READ_ONCE(v->counter)`. -/
def arch_atomic64_read (v : State) : Int :=
  v.counter

/-- `arch_atomic64_set`: `WRITE_ONCE(v->counter, i)`. -/
def arch_atomic64_set (v : State) (i : Int) : State :=
  { v with counter := i }

/-! ## Critical-section engine -/

/-- The body generated by `ATOMIC_OP(op_name, op)`: save and mask, `v->counter op i`,
restore. -/
def ATOMIC_OP (op : Int → Int → Int) (i : Int) (v : State) : State :=
  let saved := raw_local_irq_save v
  let flags := saved.1
  let v1 := saved.2
  let v2 := { v1 with counter := op v1.counter i }
  raw_local_irq_restore flags v2

/-- `ATOMIC_OP(add, +=)`. -/
def arch_atomic_add (i : Int) (v : State) : State := ATOMIC_OP int_add i v

/-- `ATOMIC_OP(sub, -=)`. -/
def arch_atomic_sub (i : Int) (v : State) : State := ATOMIC_OP int_sub i v

/-- `ATOMIC_OP(and, &=)`. -/
def arch_atomic_and (i : Int) (v : State) : State := ATOMIC_OP int_and i v

/-- `ATOMIC_OP(or, |=)`. -/
def arch_atomic_or (i : Int) (v : State) : State := ATOMIC_OP int_or i v

/-- `ATOMIC_OP(xor, ^=)`. -/
def arch_atomic_xor (i : Int) (v : State) : State := ATOMIC_OP int_xor i v

/-- `arch_atomic_fetch_add`: save and mask, `ret = v->counter`, `v->counter += i`,
restore, `return ret`. -/
def arch_atomic_fetch_add (i : Int) (v : State) : Int × State :=
  let saved := raw_local_irq_save v
  let flags := saved.1
  let v1 := saved.2
  let ret := v1.counter
  let v2 := { v1 with counter := int_add v1.counter i }
  (ret, raw_local_irq_restore flags v2)

/-- `arch_atomic_add_return`: `return arch_atomic_fetch_add(i, v) + i`. -/
def arch_atomic_add_return (i : Int) (v : State) : Int × State :=
  let r := arch_atomic_fetch_add i v
  (int_add r.1 i, r.2)

/-- `arch_atomic_fetch_sub`: `return arch_atomic_fetch_add(-i, v)`. -/
def arch_atomic_fetch_sub (i : Int) (v : State) : Int × State :=
  arch_atomic_fetch_add (int_neg i) v

/-- `arch_atomic_sub_return`: `return arch_atomic_add_return(-i, v)`. -/
def arch_atomic_sub_return (i : Int) (v : State) : Int × State :=
  arch_atomic_add_return (int_neg i) v

/-- The body generated by `ATOMIC_FETCH_OP(op_name, op)`: save and mask,
`ret = v->counter`, `v->counter op i`, restore, `return ret`. -/
def ATOMIC_FETCH_OP (op : Int → Int → Int) (i : Int) (v : State) : Int × State :=
  let saved := raw_local_irq_save v
  let flags := saved.1
  let v1 := saved.2
  let ret := v1.counter
  let v2 := { v1 with counter := op v1.counter i }
  (ret, raw_local_irq_restore flags v2)

/-- `ATOMIC_FETCH_OP(and, &=)`. -/
def arch_atomic_fetch_and (i : Int) (v : State) : Int × State := ATOMIC_FETCH_OP int_and i v

/-- `ATOMIC_FETCH_OP(or, |=)`. -/
def arch_atomic_fetch_or (i : Int) (v : State) : Int × State := ATOMIC_FETCH_OP int_or i v

/-- `ATOMIC_FETCH_OP(xor, ^=)`. -/
def arch_atomic_fetch_xor (i : Int) (v : State) : Int × State := ATOMIC_FETCH_OP int_xor i v

/-! ## Inline assembly -/

/-- Register width of the hart (`__riscv_xlen`). -/
inductive Xlen where
  | rv32
  | rv64
deriving DecidableEq, Repr

/-- Number of bits of a general-purpose register. -/
def Xlen.bits : Xlen → Nat
  | Xlen.rv32 => 32
  | Xlen.rv64 => 64

/-- The registers an `asm` statement of the header refers to: the operands
`%[p]`, `%[rc]`, `%[a]`, `%[u]`, and the hard-wired `zero`. -/
inductive Reg where
  | p
  | rc
  | a
  | u
  | zero
deriving DecidableEq, Repr

/-- Predecessor and successor sets of a `fence` instruction. -/
inductive FenceSet where
  | r
  | w
  | rw
deriving DecidableEq, Repr

/-- The instructions that occur in the header.  The memory operand of `lw` and
`sw` is always `%[c]`, the counter; a branch names a forward local label. -/
inductive Instr where
  | lw (rd : Reg)
  | sw (rs : Reg)
  | beq (rs1 rs2 : Reg) (l : Nat)
  | bltz (rs : Reg) (l : Nat)
  | bgtz (rs : Reg) (l : Nat)
  | add (rd rs1 rs2 : Reg)
  | addi (rd rs1 : Reg) (imm : Int)
  | mv (rd rs : Reg)
  | fence (pred succ : FenceSet)
  | label (l : Nat)
deriving DecidableEq, Repr

/-- What an executed instruction does to memory and to memory ordering. -/
inductive Event where
  | load
  | store (val : Int)
  | fence (pred succ : FenceSet)
deriving DecidableEq, Repr

/-- Contents of the operand registers, as signed values of `Xlen.bits` bits. -/
structure Regs where
  p : Int
  rc : Int
  a : Int
  u : Int
deriving DecidableEq, Repr

/-- State of an `asm` statement in execution: the operand registers, the object
bound to `%[c]` (as a signed value of its own width), and the events so far, in
program order. -/
structure AsmState where
  regs : Regs
  mem : Int
  events : List Event
deriving DecidableEq, Repr

/-- Read a register. -/
def Regs.get (r : Regs) : Reg → Int
  | Reg.p => r.p
  | Reg.rc => r.rc
  | Reg.a => r.a
  | Reg.u => r.u
  | Reg.zero => 0

/-- Write a register; a write to `zero` is discarded. -/
def Regs.set (r : Regs) (rd : Reg) (x : Int) : Regs :=
  match rd with
  | Reg.p => { r with p := x }
  | Reg.rc => { r with rc := x }
  | Reg.a => { r with a := x }
  | Reg.u => { r with u := x }
  | Reg.zero => r

/-- The 32-bit word `lw` reads at the address of an object: its low 32 bits (the
target is little-endian), sign-extended into the register. -/
def load_word (mem : Int) : Int :=
  sext 32 mem

/-- The object of `cw` bits after `sw` has written the low 32 bits of `x` to its
address: the low 32 bits of the object are replaced, the others are kept. -/
def store_word (cw : Nat) (mem x : Int) : Int :=
  sext cw (mem - mem % 2 ^ 32 + x % 2 ^ 32)

/-- Execute one instruction on a hart of width `xl`, the object bound to `%[c]`
being `cw` bits wide.  The second component is the label of a taken branch. -/
def step (xl : Xlen) (cw : Nat) (i : Instr) (s : AsmState) : AsmState × Option Nat :=
  match i with
  | Instr.lw rd =>
      ({ s with regs := s.regs.set rd (sext xl.bits (load_word s.mem)),
                events := s.events ++ [Event.load] }, none)
  | Instr.sw rs =>
      ({ s with mem := store_word cw s.mem (s.regs.get rs),
                events := s.events ++ [Event.store (sext 32 (s.regs.get rs))] }, none)
  | Instr.beq rs1 rs2 l =>
      (s, if s.regs.get rs1 = s.regs.get rs2 then some l else none)
  | Instr.bltz rs l =>
      (s, if s.regs.get rs < 0 then some l else none)
  | Instr.bgtz rs l =>
      (s, if s.regs.get rs > 0 then some l else none)
  | Instr.add rd rs1 rs2 =>
      ({ s with regs := s.regs.set rd (sext xl.bits (s.regs.get rs1 + s.regs.get rs2)) }, none)
  | Instr.addi rd rs1 imm =>
      ({ s with regs := s.regs.set rd (sext xl.bits (s.regs.get rs1 + imm)) }, none)
  | Instr.mv rd rs =>
      ({ s with regs := s.regs.set rd (s.regs.get rs) }, none)
  | Instr.fence pred succ =>
      ({ s with events := s.events ++ [Event.fence pred succ] }, none)
  | Instr.label _ =>
      (s, none)

/-- Run an instruction sequence.  After a taken branch (`some l`) instructions are
skipped up to the label `l:`; every branch of the header is a forward branch. -/
def exec (xl : Xlen) (cw : Nat) : Option Nat → List Instr → AsmState → AsmState
  | _, [], s => s
  | some l, i :: rest, s =>
      if i = Instr.label l then exec xl cw none rest s else exec xl cw (some l) rest s
  | none, i :: rest, s =>
      exec xl cw (step xl cw i s).2 rest (step xl cw i s).1

/-- The `sfx` argument of the macros of the conditional engine. -/
inductive Sfx where
  | w
  | d
deriving DecidableEq, Repr

/-- What a macro of the conditional engine leaves behind: the values assigned to
`_prev` and `_rc`, the counter and interrupt state, and the events of its `asm`
statement. -/
structure AsmOut where
  prev : Int
  rc : Int
  state : State
  events : List Event
deriving DecidableEq, Repr

/-- The `asm` statement of `_arch_atomic_fetch_add_unless`. -/
def fetch_add_unless_asm : List Instr :=
  [ Instr.lw Reg.p,
    Instr.beq Reg.p Reg.u 1,
    Instr.add Reg.rc Reg.p Reg.a,
    Instr.sw Reg.rc,
    Instr.mv Reg.rc Reg.zero,
    Instr.fence FenceSet.rw FenceSet.rw,
    Instr.label 1 ]

/-- The `asm` statement of `_arch_atomic_inc_unless_negative`. -/
def inc_unless_negative_asm : List Instr :=
  [ Instr.lw Reg.p,
    Instr.bltz Reg.p 1,
    Instr.addi Reg.rc Reg.p 1,
    Instr.sw Reg.rc,
    Instr.mv Reg.rc Reg.zero,
    Instr.fence FenceSet.rw FenceSet.rw,
    Instr.label 1 ]

/-- The `asm` statement of `_arch_atomic_dec_unless_positive`. -/
def dec_unless_positive_asm : List Instr :=
  [ Instr.lw Reg.p,
    Instr.bgtz Reg.p 1,
    Instr.addi Reg.rc Reg.p (-1),
    Instr.sw Reg.rc,
    Instr.mv Reg.rc Reg.zero,
    Instr.fence FenceSet.rw FenceSet.rw,
    Instr.label 1 ]

/-- The `asm` statement of `_arch_atomic_dec_if_positive`. -/
def dec_if_positive_asm : List Instr :=
  [ Instr.lw Reg.p,
    Instr.addi Reg.rc Reg.p (-1),
    Instr.bltz Reg.rc 1,
    Instr.sw Reg.rc,
    Instr.mv Reg.rc Reg.zero,
    Instr.fence FenceSet.rw FenceSet.rw,
    Instr.label 1 ]

/-- The shape shared by the four macros of the conditional engine:
`raw_local_save_flags(__flags)`, the `asm` statement with `%[p]` and `%[rc]` bound
to `_prev` and `_rc` (outputs only: they enter with whatever the registers held,
`p0` and `rc0`) and `%[c]` bound to `counter`, an object of `cw` bits, then
`raw_local_irq_restore(__flags)`. -/
def run_asm (xl : Xlen) (cw : Nat) (prog : List Instr) (p0 rc0 : Int) (v : State)
    (a u : Int) : AsmOut :=
  let flags := raw_local_save_flags v
  let r := exec xl cw none prog ⟨⟨p0, rc0, a, u⟩, v.counter, []⟩
  ⟨r.regs.p, r.regs.rc, raw_local_irq_restore flags { v with counter := r.mem }, r.events⟩

/-- The register `%[p]` after the leading `lw` of every `asm` statement. -/
def loaded (xl : Xlen) (v : State) : Int :=
  sext xl.bits (load_word v.counter)

/-- The macro `_arch_atomic_fetch_add_unless(_prev, _rc, counter, _a, _u, sfx)`;
its body does not use `sfx`. -/
def _arch_atomic_fetch_add_unless (xl : Xlen) (cw : Nat) (p0 rc0 : Int) (v : State)
    (a u : Int) (_sfx : Sfx) : AsmOut :=
  run_asm xl cw fetch_add_unless_asm p0 rc0 v a u

/-- The macro `_arch_atomic_inc_unless_negative(_prev, _rc, counter, sfx)`; its body
does not use `sfx`, and its `asm` statement has no input operand. -/
def _arch_atomic_inc_unless_negative (xl : Xlen) (cw : Nat) (p0 rc0 : Int) (v : State)
    (_sfx : Sfx) : AsmOut :=
  run_asm xl cw inc_unless_negative_asm p0 rc0 v 0 0

/-- The macro `_arch_atomic_dec_unless_positive(_prev, _rc, counter, sfx)`; its body
does not use `sfx`, and its `asm` statement has no input operand. -/
def _arch_atomic_dec_unless_positive (xl : Xlen) (cw : Nat) (p0 rc0 : Int) (v : State)
    (_sfx : Sfx) : AsmOut :=
  run_asm xl cw dec_unless_positive_asm p0 rc0 v 0 0

/-- The macro `_arch_atomic_dec_if_positive(_prev, _rc, counter, sfx)`; its body does
not use `sfx`, and its `asm` statement has no input operand. -/
def _arch_atomic_dec_if_positive (xl : Xlen) (cw : Nat) (p0 rc0 : Int) (v : State)
    (_sfx : Sfx) : AsmOut :=
  run_asm xl cw dec_if_positive_asm p0 rc0 v 0 0

/-! ## Conditional engine, 32-bit counter

`prev` and `rc` are declared without an initial value; `p0` and `rc0` stand for
what their registers hold when the `asm` statement is entered. -/

/-- `arch_atomic_fetch_add_unless(v, a, u)`: the `int` operands `a` and `u` are
passed in registers, `return prev`. -/
def arch_atomic_fetch_add_unless (xl : Xlen) (p0 rc0 : Int) (v : State) (a u : Int) :
    Int × State :=
  let r := _arch_atomic_fetch_add_unless xl 32 p0 rc0 v (sext xl.bits a) (sext xl.bits u) Sfx.w
  (to_int r.prev, r.state)

/-- `arch_atomic_inc_unless_negative(v)`: `return !(prev < 0)`. -/
def arch_atomic_inc_unless_negative (xl : Xlen) (p0 rc0 : Int) (v : State) : Bool × State :=
  let r := _arch_atomic_inc_unless_negative xl 32 p0 rc0 v Sfx.w
  (!(decide (to_int r.prev < 0)), r.state)

/-- `arch_atomic_dec_unless_positive(v)`: `return !(prev > 0)`. -/
def arch_atomic_dec_unless_positive (xl : Xlen) (p0 rc0 : Int) (v : State) : Bool × State :=
  let r := _arch_atomic_dec_unless_positive xl 32 p0 rc0 v Sfx.w
  (!(decide (to_int r.prev > 0)), r.state)

/-- `arch_atomic_dec_if_positive(v)`: `return prev - 1`. -/
def arch_atomic_dec_if_positive (xl : Xlen) (p0 rc0 : Int) (v : State) : Int × State :=
  let r := _arch_atomic_dec_if_positive xl 32 p0 rc0 v Sfx.w
  (int_sub (to_int r.prev) 1, r.state)

/-! ## Conditional engine, 64-bit counter (`#ifndef CONFIG_GENERIC_ATOMIC64`)

These functions exist only where `__riscv_xlen` is at least 64, so the hart is
`Xlen.rv64`; `prev` is an `s64` and `rc` a `long`. -/

/-- `arch_atomic64_fetch_add_unless(v, a, u)`: `return prev`. -/
def arch_atomic64_fetch_add_unless (p0 rc0 : Int) (v : State) (a u : Int) : Int × State :=
  let r := _arch_atomic_fetch_add_unless Xlen.rv64 64 p0 rc0 v (sext 64 a) (sext 64 u) Sfx.d
  (to_s64 r.prev, r.state)

/-- `arch_atomic64_inc_unless_negative(v)`: `return !(prev < 0)`. -/
def arch_atomic64_inc_unless_negative (p0 rc0 : Int) (v : State) : Bool × State :=
  let r := _arch_atomic_inc_unless_negative Xlen.rv64 64 p0 rc0 v Sfx.d
  (!(decide (to_s64 r.prev < 0)), r.state)

/-- `arch_atomic64_dec_unless_positive(v)`: `return !(prev > 0)`. -/
def arch_atomic64_dec_unless_positive (p0 rc0 : Int) (v : State) : Bool × State :=
  let r := _arch_atomic_dec_unless_positive Xlen.rv64 64 p0 rc0 v Sfx.d
  (!(decide (to_s64 r.prev > 0)), r.state)

/-- `arch_atomic64_dec_if_positive(v)`: `return prev - 1`. -/
def arch_atomic64_dec_if_positive (p0 rc0 : Int) (v : State) : Int × State :=
  let r := _arch_atomic_dec_if_positive Xlen.rv64 64 p0 rc0 v Sfx.d
  (to_s64 (to_s64 r.prev - 1), r.state)

/-! ## Interrupts on a single hart

The operations above run to completion.  Below, an operation is run step by step
on a hart on which an interrupt is raised once, when `arrival` steps of the
operation have been executed; the handler is a function on the counter and the
interrupt-enable state, for instance another operation of this header. -/

/-- Modelled from the spec: the trap mechanism of the hart, which is hardware and
not among the sources.  The handler is entered with interrupts masked, and the
return from the handler puts the interrupt-enable state back. -/
def trap (handler : State → State) (s : State) : State :=
  { handler { s with irq_enabled := false } with irq_enabled := s.irq_enabled }

/-- Modelled from the spec: interrupt delivery, which is hardware and not among the
sources: "no interrupt handler can run on that core while interrupts are masked".
A pending interrupt is taken when interrupts are enabled and stays pending while
they are masked.  The first component is what is still pending. -/
def take_irq (handler : State → State) (pending : Bool) (s : State) : Bool × State :=
  if pending && s.irq_enabled then (false, trap handler s) else (pending, s)

/-- The steps of a function generated by `ATOMIC_FETCH_OP`, and of
`arch_atomic_fetch_add`, one per access to the interrupt state or to the counter:
`raw_local_irq_save(flags)`, `ret = v->counter`, the read and the write of
`v->counter op i`, `raw_local_irq_restore(flags)`. -/
inductive CsStep where
  | irq_save
  | load_ret
  | load_op
  | store_op
  | irq_restore
deriving DecidableEq, Repr

/-- The local variables of such a function (`tmp` is the value read by
`v->counter op i`), and, for every access to the counter made so far, whether
interrupts were masked when it was made. -/
structure CsLocals where
  flags : Bool
  ret : Int
  tmp : Int
  masked : List Bool
deriving DecidableEq, Repr

/-- Execute one step of a critical-section operation with operator `op` and
operand `i`. -/
def cs_step (op : Int → Int → Int) (i : Int) (st : CsStep) (c : CsLocals) (s : State) :
    CsLocals × State :=
  match st with
  | CsStep.irq_save =>
      ({ c with flags := (raw_local_irq_save s).1 }, (raw_local_irq_save s).2)
  | CsStep.load_ret =>
      ({ c with ret := s.counter, masked := c.masked ++ [!s.irq_enabled] }, s)
  | CsStep.load_op =>
      ({ c with tmp := s.counter, masked := c.masked ++ [!s.irq_enabled] }, s)
  | CsStep.store_op =>
      ({ c with masked := c.masked ++ [!s.irq_enabled] }, { s with counter := op c.tmp i })
  | CsStep.irq_restore =>
      (c, raw_local_irq_restore c.flags s)

/-- The body of `arch_atomic_fetch_add` and of the functions generated by
`ATOMIC_FETCH_OP`, step by step. -/
def fetch_op_steps : List CsStep :=
  [CsStep.irq_save, CsStep.load_ret, CsStep.load_op, CsStep.store_op, CsStep.irq_restore]

/-- The body of the functions generated by `ATOMIC_OP`, step by step. -/
def atomic_op_steps : List CsStep :=
  [CsStep.irq_save, CsStep.load_op, CsStep.store_op, CsStep.irq_restore]

/-- Run the steps of a critical-section operation on a hart on which an interrupt
is raised when `arrival` steps have been executed.  `n` counts the steps executed;
before every step and after the last one a pending interrupt is taken if interrupts
are enabled.  The first component of the result tells whether the interrupt is
still pending at the end. -/
def run_cs_irq (op : Int → Int → Int) (i : Int) (handler : State → State) (arrival : Nat) :
    Nat → Bool → List CsStep → CsLocals → State → Bool × CsLocals × State
  | n, pending, [], c, s =>
      ((take_irq handler (pending || decide (n = arrival)) s).1, c,
        (take_irq handler (pending || decide (n = arrival)) s).2)
  | n, pending, st :: rest, c, s =>
      run_cs_irq op i handler arrival (n + 1)
        (take_irq handler (pending || decide (n = arrival)) s).1 rest
        (cs_step op i st c (take_irq handler (pending || decide (n = arrival)) s).2).1
        (cs_step op i st c (take_irq handler (pending || decide (n = arrival)) s).2).2

/-- Run an `asm` statement of the conditional engine on a hart on which an interrupt
is raised when `arrival` instructions have been executed.  `irq` is the
interrupt-enable state during the statement, which no instruction of it changes;
before every executed instruction and after the last one a pending interrupt is
taken if interrupts are enabled, the handler acting on the object bound to `%[c]`.
The first component of the result tells whether the interrupt is still pending at
the end. -/
def exec_irq (xl : Xlen) (cw : Nat) (handler : State → State) (irq : Bool) (arrival : Nat) :
    Nat → Bool → Option Nat → List Instr → AsmState → Bool × AsmState
  | n, pending, _, [], s =>
      ((take_irq handler (pending || decide (n = arrival)) ⟨s.mem, irq⟩).1,
        { s with mem := (take_irq handler (pending || decide (n = arrival)) ⟨s.mem, irq⟩).2.counter })
  | n, pending, some l, i :: rest, s =>
      if i = Instr.label l then exec_irq xl cw handler irq arrival n pending none rest s
      else exec_irq xl cw handler irq arrival n pending (some l) rest s
  | n, pending, none, i :: rest, s =>
      exec_irq xl cw handler irq arrival (n + 1)
        (take_irq handler (pending || decide (n = arrival)) ⟨s.mem, irq⟩).1
        (step xl cw i
          { s with mem := (take_irq handler (pending || decide (n = arrival)) ⟨s.mem, irq⟩).2.counter }).2
        rest
        (step xl cw i
          { s with mem := (take_irq handler (pending || decide (n = arrival)) ⟨s.mem, irq⟩).2.counter }).1

/-- The shape shared by the four macros of the conditional engine, as `run_asm`, on
a hart on which an interrupt is raised when `arrival` instructions of the `asm`
statement have been executed.  `raw_local_save_flags` does not mask, so during the
statement interrupts are enabled if they were at entry. -/
def run_asm_irq (xl : Xlen) (cw : Nat) (prog : List Instr) (p0 rc0 : Int) (v : State)
    (a u : Int) (handler : State → State) (arrival : Nat) : Bool × AsmOut :=
  let flags := raw_local_save_flags v
  let r := exec_irq xl cw handler v.irq_enabled arrival 0 false none prog
    ⟨⟨p0, rc0, a, u⟩, v.counter, []⟩
  (r.1, ⟨r.2.regs.p, r.2.regs.rc, raw_local_irq_restore flags { v with counter := r.2.mem },
    r.2.events⟩)

/-- The `asm` statements of the four conditional operations. -/
def conditional_asm : List (List Instr) :=
  [fetch_add_unless_asm, inc_unless_negative_asm, dec_unless_positive_asm, dec_if_positive_asm]

/-- The counter value an interrupted conditional operation loads: the interrupt is
taken before the leading `lw` when it is raised before the first instruction and
interrupts are enabled. -/
def at_load (handler : State → State) (arrival : Nat) (v : State) : State :=
  (take_irq handler (decide (0 = arrival)) v).2

/-- The handler that calls `arch_atomic_fetch_add(j, v)` on the counter. -/
def fetch_add_handler (j : Int) (s : State) : State :=
  (arch_atomic_fetch_add j s).2

/-! ## Arithmetic facts about machine integers -/

theorem to_int_eq (x : Int) : to_int x = (x + 2147483648) % 4294967296 - 2147483648 := by
  simp [to_int, sext]

theorem to_s64_eq (x : Int) :
    to_s64 x = (x + 9223372036854775808) % 18446744073709551616 - 9223372036854775808 := by
  simp [to_s64, sext]

theorem to_int_of_is_int (x : Int) (h : is_int x) : to_int x = x := by
  rw [to_int_eq]; unfold is_int at h; omega

theorem is_int_to_int (x : Int) : is_int (to_int x) := by
  rw [to_int_eq]; unfold is_int; omega

/-! ## The `asm` statements, executed -/

theorem run_fetch_add_unless (xl : Xlen) (cw : Nat) (p0 rc0 a u : Int) (v : State) :
    run_asm xl cw fetch_add_unless_asm p0 rc0 v a u =
      if loaded xl v = u then
        ⟨loaded xl v, rc0, v, [Event.load]⟩
      else
        ⟨loaded xl v, 0,
          { v with counter := store_word cw v.counter (sext xl.bits (loaded xl v + a)) },
          [Event.load, Event.store (sext 32 (sext xl.bits (loaded xl v + a))),
            Event.fence FenceSet.rw FenceSet.rw]⟩ := by
  by_cases h : loaded xl v = u
  · simp only [loaded] at h
    simp [run_asm, exec, step, fetch_add_unless_asm, Regs.get, Regs.set,
      raw_local_save_flags, raw_local_irq_restore, loaded, h]
  · simp only [loaded] at h
    simp [run_asm, exec, step, fetch_add_unless_asm, Regs.get, Regs.set,
      raw_local_save_flags, raw_local_irq_restore, loaded, h]

theorem run_inc_unless_negative (xl : Xlen) (cw : Nat) (p0 rc0 a u : Int) (v : State) :
    run_asm xl cw inc_unless_negative_asm p0 rc0 v a u =
      if loaded xl v < 0 then
        ⟨loaded xl v, rc0, v, [Event.load]⟩
      else
        ⟨loaded xl v, 0,
          { v with counter := store_word cw v.counter (sext xl.bits (loaded xl v + 1)) },
          [Event.load, Event.store (sext 32 (sext xl.bits (loaded xl v + 1))),
            Event.fence FenceSet.rw FenceSet.rw]⟩ := by
  by_cases h : loaded xl v < 0
  · simp only [loaded] at h
    simp [run_asm, exec, step, inc_unless_negative_asm, Regs.get, Regs.set,
      raw_local_save_flags, raw_local_irq_restore, loaded, h]
  · simp only [loaded] at h
    simp [run_asm, exec, step, inc_unless_negative_asm, Regs.get, Regs.set,
      raw_local_save_flags, raw_local_irq_restore, loaded, h]

theorem run_dec_unless_positive (xl : Xlen) (cw : Nat) (p0 rc0 a u : Int) (v : State) :
    run_asm xl cw dec_unless_positive_asm p0 rc0 v a u =
      if loaded xl v > 0 then
        ⟨loaded xl v, rc0, v, [Event.load]⟩
      else
        ⟨loaded xl v, 0,
          { v with counter := store_word cw v.counter (sext xl.bits (loaded xl v + -1)) },
          [Event.load, Event.store (sext 32 (sext xl.bits (loaded xl v + -1))),
            Event.fence FenceSet.rw FenceSet.rw]⟩ := by
  by_cases h : loaded xl v > 0
  · simp only [loaded] at h
    simp [run_asm, exec, step, dec_unless_positive_asm, Regs.get, Regs.set,
      raw_local_save_flags, raw_local_irq_restore, loaded, h]
  · simp only [loaded] at h
    simp [run_asm, exec, step, dec_unless_positive_asm, Regs.get, Regs.set,
      raw_local_save_flags, raw_local_irq_restore, loaded, h]

theorem run_dec_if_positive (xl : Xlen) (cw : Nat) (p0 rc0 a u : Int) (v : State) :
    run_asm xl cw dec_if_positive_asm p0 rc0 v a u =
      if sext xl.bits (loaded xl v + -1) < 0 then
        ⟨loaded xl v, sext xl.bits (loaded xl v + -1), v, [Event.load]⟩
      else
        ⟨loaded xl v, 0,
          { v with counter := store_word cw v.counter (sext xl.bits (loaded xl v + -1)) },
          [Event.load, Event.store (sext 32 (sext xl.bits (loaded xl v + -1))),
            Event.fence FenceSet.rw FenceSet.rw]⟩ := by
  by_cases h : sext xl.bits (loaded xl v + -1) < 0
  · simp only [loaded] at h
    simp [run_asm, exec, step, dec_if_positive_asm, Regs.get, Regs.set,
      raw_local_save_flags, raw_local_irq_restore, loaded, h]
  · simp only [loaded] at h
    simp [run_asm, exec, step, dec_if_positive_asm, Regs.get, Regs.set,
      raw_local_save_flags, raw_local_irq_restore, loaded, h]

/-! ## Registers and words: arithmetic -/

theorem sext32_eq (x : Int) : sext 32 x = (x + 2147483648) % 4294967296 - 2147483648 := by
  simp [sext]

theorem sext64_eq (x : Int) :
    sext 64 x = (x + 9223372036854775808) % 18446744073709551616 - 9223372036854775808 := by
  simp [sext]

/-- A value of type `int` is its own representation in a register of either width. -/
theorem sext_bits_of_is_int (xl : Xlen) (x : Int) (h : is_int x) : sext xl.bits x = x := by
  unfold is_int at h
  cases xl
  · rw [Xlen.bits, sext32_eq]; omega
  · rw [Xlen.bits, sext64_eq]; omega

/-- `lw` on a 32-bit counter yields its value. -/
theorem loaded_of_is_int (xl : Xlen) (v : State) (h : is_int v.counter) :
    loaded xl v = v.counter := by
  have h1 : load_word v.counter = v.counter := to_int_of_is_int _ h
  rw [loaded, h1]
  exact sext_bits_of_is_int xl _ h

/-- `sw` on a 32-bit counter leaves the register reduced to 32 bits, whatever the
width of the register. -/
theorem store_word_32 (xl : Xlen) (m x : Int) :
    store_word 32 m (sext xl.bits x) = to_int x := by
  cases xl
  · simp only [store_word, Xlen.bits, to_int, sext32_eq]; norm_num; omega
  · simp only [store_word, Xlen.bits, to_int, sext32_eq, sext64_eq]; norm_num; omega

/-! ## Bitwise operators on values of type `int` -/

theorem is_int_ofNat (m : Nat) : is_int (Int.ofNat m) ↔ m < 2 ^ 31 := by
  unfold is_int
  constructor
  · intro h
    have := h.2
    simp only [Int.ofNat_eq_coe] at this
    omega
  · intro h
    simp only [Int.ofNat_eq_coe]
    omega

theorem is_int_negSucc (m : Nat) : is_int (Int.negSucc m) ↔ m < 2 ^ 31 := by
  unfold is_int
  constructor
  · intro h
    have := h.1
    simp only [Int.negSucc_eq] at this
    omega
  · intro h
    simp only [Int.negSucc_eq]
    omega

theorem ldiff_lt_two_pow (m n k : Nat) (h : m < 2 ^ k) : Nat.ldiff m n < 2 ^ k := by
  apply Nat.lt_pow_two_of_testBit
  intro i hi
  have hm : m.testBit i = false :=
    Nat.testBit_lt_two_pow (lt_of_lt_of_le h (Nat.pow_le_pow_right (by norm_num) hi))
  rw [Nat.testBit_ldiff, hm, Bool.false_and]

/-- `&` on two values of type `int` is a value of type `int`. -/
theorem is_int_land (a b : Int) (ha : is_int a) (hb : is_int b) : is_int (Int.land a b) := by
  cases a with
  | ofNat m =>
    cases b with
    | ofNat n =>
      rw [is_int_ofNat] at ha hb
      show is_int (Int.ofNat (m &&& n))
      rw [is_int_ofNat]
      exact Nat.and_lt_two_pow m hb
    | negSucc n =>
      rw [is_int_ofNat] at ha
      show is_int (Int.ofNat (Nat.ldiff m n))
      rw [is_int_ofNat]
      exact ldiff_lt_two_pow m n 31 ha
  | negSucc m =>
    cases b with
    | ofNat n =>
      rw [is_int_ofNat] at hb
      show is_int (Int.ofNat (Nat.ldiff n m))
      rw [is_int_ofNat]
      exact ldiff_lt_two_pow n m 31 hb
    | negSucc n =>
      rw [is_int_negSucc] at ha hb
      show is_int (Int.negSucc (m ||| n))
      rw [is_int_negSucc]
      exact Nat.or_lt_two_pow ha hb

/-- `|` on two values of type `int` is a value of type `int`. -/
theorem is_int_lor (a b : Int) (ha : is_int a) (hb : is_int b) : is_int (Int.lor a b) := by
  cases a with
  | ofNat m =>
    cases b with
    | ofNat n =>
      rw [is_int_ofNat] at ha hb
      show is_int (Int.ofNat (m ||| n))
      rw [is_int_ofNat]
      exact Nat.or_lt_two_pow ha hb
    | negSucc n =>
      rw [is_int_negSucc] at hb
      show is_int (Int.negSucc (Nat.ldiff n m))
      rw [is_int_negSucc]
      exact ldiff_lt_two_pow n m 31 hb
  | negSucc m =>
    cases b with
    | ofNat n =>
      rw [is_int_negSucc] at ha
      show is_int (Int.negSucc (Nat.ldiff m n))
      rw [is_int_negSucc]
      exact ldiff_lt_two_pow m n 31 ha
    | negSucc n =>
      rw [is_int_negSucc] at ha hb
      show is_int (Int.negSucc (m &&& n))
      rw [is_int_negSucc]
      exact Nat.and_lt_two_pow m hb

/-- `^` on two values of type `int` is a value of type `int`. -/
theorem is_int_xor (a b : Int) (ha : is_int a) (hb : is_int b) : is_int (Int.xor a b) := by
  cases a with
  | ofNat m =>
    cases b with
    | ofNat n =>
      rw [is_int_ofNat] at ha hb
      show is_int (Int.ofNat (m ^^^ n))
      rw [is_int_ofNat]
      exact Nat.xor_lt_two_pow ha hb
    | negSucc n =>
      rw [is_int_ofNat] at ha
      rw [is_int_negSucc] at hb
      show is_int (Int.negSucc (m ^^^ n))
      rw [is_int_negSucc]
      exact Nat.xor_lt_two_pow ha hb
  | negSucc m =>
    cases b with
    | ofNat n =>
      rw [is_int_ofNat] at hb
      rw [is_int_negSucc] at ha
      show is_int (Int.negSucc (m ^^^ n))
      rw [is_int_negSucc]
      exact Nat.xor_lt_two_pow ha hb
    | negSucc n =>
      rw [is_int_negSucc] at ha hb
      show is_int (Int.ofNat (m ^^^ n))
      rw [is_int_ofNat]
      exact Nat.xor_lt_two_pow ha hb

/-! ## Critical-section engine: fetch-and-add -/

/-- C1: for every initial counter value `v` and every delta `d` (all integers, the
values of type `int` among them), `arch_atomic_fetch_add(d, c)` returns `v`, and an
`arch_atomic_read(c)` that follows returns `v + d` reduced to 32-bit two's
complement, which is a value of type `int`. -/
theorem fetch_add_returns_old_then_read_sum (v d : Int) (irq : Bool) :
    (arch_atomic_fetch_add d ⟨v, irq⟩).1 = v ∧
    arch_atomic_read (arch_atomic_fetch_add d ⟨v, irq⟩).2
      = (v + d + 2147483648) % 4294967296 - 2147483648 ∧
    is_int (arch_atomic_read (arch_atomic_fetch_add d ⟨v, irq⟩).2) := by
  refine ⟨rfl, ?_, ?_⟩
  · show to_int (v + d) = _
    rw [to_int_eq]
  · show is_int (to_int (v + d))
    exact is_int_to_int _

/-! ## Conditional engine on a 32-bit counter -/

/-- C2: on a 32-bit counter holding `v`, with `int` operands `a` and `u`, on a hart
of either register width: when `v = u`, `arch_atomic_fetch_add_unless(c, a, u)`
returns `u` and leaves the counter at `v`; when `v ≠ u` it returns `v` and leaves
the counter at `v + a` reduced to 32-bit two's complement. -/
theorem fetch_add_unless_contract (xl : Xlen) (p0 rc0 v a u : Int) (irq : Bool)
    (hv : is_int v) (ha : is_int a) (hu : is_int u) :
    (v = u →
      (arch_atomic_fetch_add_unless xl p0 rc0 ⟨v, irq⟩ a u).1 = u ∧
      (arch_atomic_fetch_add_unless xl p0 rc0 ⟨v, irq⟩ a u).2.counter = v) ∧
    (v ≠ u →
      (arch_atomic_fetch_add_unless xl p0 rc0 ⟨v, irq⟩ a u).1 = v ∧
      (arch_atomic_fetch_add_unless xl p0 rc0 ⟨v, irq⟩ a u).2.counter = to_int (v + a)) := by
  have hl : loaded xl ⟨v, irq⟩ = v := loaded_of_is_int xl ⟨v, irq⟩ hv
  have hvv : to_int v = v := to_int_of_is_int v hv
  simp only [arch_atomic_fetch_add_unless, _arch_atomic_fetch_add_unless,
    run_fetch_add_unless, hl, sext_bits_of_is_int xl a ha, sext_bits_of_is_int xl u hu]
  constructor
  · intro h
    simp [h, to_int_of_is_int u hu]
  · intro h
    simp [h, hvv, store_word_32]

/-- The contract of `arch_atomic_fetch_add_unless` at `v = 7`, `a = 3`, `u = 0` on a
64-bit hart: the call returns 7 and leaves the counter at `7 + 3`. -/
theorem fetch_add_unless_contract_witness :
    is_int 7 ∧ is_int 3 ∧ is_int 0 ∧
    (arch_atomic_fetch_add_unless Xlen.rv64 0 0 ⟨7, true⟩ 3 0).1 = 7 ∧
    (arch_atomic_fetch_add_unless Xlen.rv64 0 0 ⟨7, true⟩ 3 0).2.counter = to_int (7 + 3) :=
  ⟨by decide, by decide, by decide,
    (fetch_add_unless_contract Xlen.rv64 0 0 7 3 0 true (by decide) (by decide) (by decide)).2
      (by decide)⟩

/-- C3: on a 32-bit counter holding `v`, on a hart of either register width: when
`v < 0`, `arch_atomic_inc_unless_negative` returns false and leaves the counter at
`v`; when `v ≥ 0` it returns true and leaves the counter at `v + 1` reduced to
32-bit two's complement; so it returns true if and only if the increment was
applied. -/
theorem inc_unless_negative_contract (xl : Xlen) (p0 rc0 v : Int) (irq : Bool)
    (hv : is_int v) :
    (v < 0 →
      (arch_atomic_inc_unless_negative xl p0 rc0 ⟨v, irq⟩).1 = false ∧
      (arch_atomic_inc_unless_negative xl p0 rc0 ⟨v, irq⟩).2.counter = v) ∧
    (0 ≤ v →
      (arch_atomic_inc_unless_negative xl p0 rc0 ⟨v, irq⟩).1 = true ∧
      (arch_atomic_inc_unless_negative xl p0 rc0 ⟨v, irq⟩).2.counter = to_int (v + 1)) ∧
    ((arch_atomic_inc_unless_negative xl p0 rc0 ⟨v, irq⟩).1 = true ↔
      (arch_atomic_inc_unless_negative xl p0 rc0 ⟨v, irq⟩).2.counter = to_int (v + 1)) := by
  have hl : loaded xl ⟨v, irq⟩ = v := loaded_of_is_int xl ⟨v, irq⟩ hv
  have hvv : to_int v = v := to_int_of_is_int v hv
  have hne : v ≠ to_int (v + 1) := by
    rw [to_int_eq]; unfold is_int at hv; omega
  simp only [arch_atomic_inc_unless_negative, _arch_atomic_inc_unless_negative,
    run_inc_unless_negative, hl]
  by_cases h : v < 0
  · have h' : ¬ 0 ≤ v := not_le.mpr h
    simp [h, h', hvv, hne]
  · have h' : 0 ≤ v := not_lt.mp h
    simp [h, h', hvv, store_word_32]

/-- The spec's two cases of `arch_atomic_inc_unless_negative`: a counter at `-1`
stays at `-1` and the call returns false. -/
theorem inc_unless_negative_contract_witness :
    is_int (-1) ∧
    (arch_atomic_inc_unless_negative Xlen.rv32 0 0 ⟨-1, true⟩).1 = false ∧
    (arch_atomic_inc_unless_negative Xlen.rv32 0 0 ⟨-1, true⟩).2.counter = -1 :=
  ⟨by decide,
    (inc_unless_negative_contract Xlen.rv32 0 0 (-1) true (by decide)).1 (by decide)⟩

/-- C4: on a 32-bit counter holding `v`, on a hart of either register width: when
`v > 0`, `arch_atomic_dec_unless_positive` returns false and leaves the counter at
`v`; when `v ≤ 0` it returns true and leaves the counter at `v - 1` reduced to
32-bit two's complement. -/
theorem dec_unless_positive_contract (xl : Xlen) (p0 rc0 v : Int) (irq : Bool)
    (hv : is_int v) :
    (0 < v →
      (arch_atomic_dec_unless_positive xl p0 rc0 ⟨v, irq⟩).1 = false ∧
      (arch_atomic_dec_unless_positive xl p0 rc0 ⟨v, irq⟩).2.counter = v) ∧
    (v ≤ 0 →
      (arch_atomic_dec_unless_positive xl p0 rc0 ⟨v, irq⟩).1 = true ∧
      (arch_atomic_dec_unless_positive xl p0 rc0 ⟨v, irq⟩).2.counter = to_int (v - 1)) := by
  have hl : loaded xl ⟨v, irq⟩ = v := loaded_of_is_int xl ⟨v, irq⟩ hv
  have hvv : to_int v = v := to_int_of_is_int v hv
  simp only [arch_atomic_dec_unless_positive, _arch_atomic_dec_unless_positive,
    run_dec_unless_positive, hl]
  by_cases h : 0 < v
  · have h' : ¬ v ≤ 0 := not_le.mpr h
    simp [h, h', hvv]
  · have h' : v ≤ 0 := not_lt.mp h
    simp [h, h', hvv, store_word_32, sub_eq_add_neg]

/-- The spec's case of `arch_atomic_dec_unless_positive` at `0`: the call returns
true and leaves the counter at `0 - 1`. -/
theorem dec_unless_positive_contract_witness :
    is_int 0 ∧
    (arch_atomic_dec_unless_positive Xlen.rv32 0 0 ⟨0, true⟩).1 = true ∧
    (arch_atomic_dec_unless_positive Xlen.rv32 0 0 ⟨0, true⟩).2.counter = to_int (0 - 1) :=
  ⟨by decide,
    (dec_unless_positive_contract Xlen.rv32 0 0 0 true (by decide)).2 (by decide)⟩

/-- Counterexample to C5 as stated: on a 64-bit hart the decrement of
`arch_atomic_dec_if_positive` on a counter at `INT_MIN` is tested in the 64-bit register, where it is negative, while the `int`
returned wraps to `INT_MAX`: the call returns a non-negative value that is not the
new counter value, and the counter is not decremented. -/
theorem dec_if_positive_int_min_rv64 :
    (arch_atomic_dec_if_positive Xlen.rv64 0 0 ⟨-2147483648, true⟩).1 = 2147483647 ∧
    (arch_atomic_dec_if_positive Xlen.rv64 0 0 ⟨-2147483648, true⟩).2.counter = -2147483648 ∧
    ¬ (0 ≤ (arch_atomic_dec_if_positive Xlen.rv64 0 0 ⟨-2147483648, true⟩).1 →
        (arch_atomic_dec_if_positive Xlen.rv64 0 0 ⟨-2147483648, true⟩).2.counter
          = (arch_atomic_dec_if_positive Xlen.rv64 0 0 ⟨-2147483648, true⟩).1) := by
  decide

/-- C5 (amended): on a 32-bit counter holding `v`, except for `v = INT_MIN` on a
64-bit hart, `arch_atomic_dec_if_positive` returns `v - 1` reduced to 32-bit two's
complement, stores that value when it is non-negative and leaves the counter at `v`
when it is negative; so a negative return value means that no decrement occurred and
a non-negative return value is the new counter value. -/
theorem dec_if_positive_contract (xl : Xlen) (p0 rc0 v : Int) (irq : Bool)
    (hv : is_int v) (hx : xl = Xlen.rv32 ∨ v ≠ INT_MIN) :
    (arch_atomic_dec_if_positive xl p0 rc0 ⟨v, irq⟩).1 = to_int (v - 1) ∧
    (0 ≤ to_int (v - 1) →
      (arch_atomic_dec_if_positive xl p0 rc0 ⟨v, irq⟩).2.counter = to_int (v - 1)) ∧
    (to_int (v - 1) < 0 →
      (arch_atomic_dec_if_positive xl p0 rc0 ⟨v, irq⟩).2.counter = v) ∧
    ((arch_atomic_dec_if_positive xl p0 rc0 ⟨v, irq⟩).1 < 0 →
      (arch_atomic_dec_if_positive xl p0 rc0 ⟨v, irq⟩).2.counter = v) ∧
    (0 ≤ (arch_atomic_dec_if_positive xl p0 rc0 ⟨v, irq⟩).1 →
      (arch_atomic_dec_if_positive xl p0 rc0 ⟨v, irq⟩).2.counter
        = (arch_atomic_dec_if_positive xl p0 rc0 ⟨v, irq⟩).1) := by
  have hl : loaded xl ⟨v, irq⟩ = v := loaded_of_is_int xl ⟨v, irq⟩ hv
  have hvv : to_int v = v := to_int_of_is_int v hv
  have hs : sext xl.bits (v + -1) = to_int (v - 1) := by
    unfold is_int at hv
    cases xl
    · rfl
    · have hne : v ≠ -2147483648 := by
        rcases hx with h | h
        · cases h
        · exact h
      rw [Xlen.bits, sext64_eq, to_int_eq]; omega
  simp only [arch_atomic_dec_if_positive, _arch_atomic_dec_if_positive, run_dec_if_positive,
    hl, hs, int_sub]
  by_cases h : to_int (v - 1) < 0
  · have h' : ¬ 0 ≤ to_int (v - 1) := not_le.mpr h
    simp [h, h', hvv]
  · have h' : 0 ≤ to_int (v - 1) := not_lt.mp h
    have hst : store_word 32 v (to_int (v - 1)) = to_int (v - 1) := by
      have := store_word_32 Xlen.rv32 v (v - 1)
      simpa [Xlen.bits, to_int] using this
    simp [h, h', hvv, hst]

/-- The spec's case of `arch_atomic_dec_if_positive` at `5`, on a 64-bit hart: the
call returns `5 - 1`, which is what it leaves in the counter. -/
theorem dec_if_positive_contract_witness :
    is_int 5 ∧ (Xlen.rv64 = Xlen.rv32 ∨ (5 : Int) ≠ INT_MIN) ∧
    (arch_atomic_dec_if_positive Xlen.rv64 0 0 ⟨5, true⟩).1 = to_int (5 - 1) ∧
    (arch_atomic_dec_if_positive Xlen.rv64 0 0 ⟨5, true⟩).2.counter = to_int (5 - 1) :=
  ⟨by decide, Or.inr (by decide),
    (dec_if_positive_contract Xlen.rv64 0 0 5 true (by decide) (Or.inr (by decide))).1,
    (dec_if_positive_contract Xlen.rv64 0 0 5 true (by decide) (Or.inr (by decide))).2.1
      (by decide)⟩

/-! ## Conditional engine on a 64-bit counter -/

/-- C6: the 64-bit conditional operations read and write the counter with `lw` and
`sw`, that is 32 bits of it.  On a counter at `2^31` `arch_atomic64_inc_unless_negative`
returns false and stores nothing; on a counter at `2^32` with sentinel 0
`arch_atomic64_fetch_add_unless` returns 0 and stores nothing; on a counter at
`2^32 - 1` with delta 1 it returns `-1` and leaves the counter at 0; on a counter at
`1 - 2^32` `arch_atomic64_dec_unless_positive` returns false and stores nothing; on a
counter at `2^32` `arch_atomic64_dec_if_positive` returns `-1` and stores nothing. -/
theorem atomic64_conditional_ops_access_32_bits :
    arch_atomic64_inc_unless_negative 0 0 ⟨2147483648, true⟩
      = (false, ⟨2147483648, true⟩) ∧
    arch_atomic64_fetch_add_unless 0 0 ⟨4294967296, true⟩ 1 0
      = (0, ⟨4294967296, true⟩) ∧
    arch_atomic64_fetch_add_unless 0 0 ⟨4294967295, true⟩ 1 5
      = (-1, ⟨0, true⟩) ∧
    arch_atomic64_dec_unless_positive 0 0 ⟨-4294967295, true⟩
      = (false, ⟨-4294967295, true⟩) ∧
    arch_atomic64_dec_if_positive 0 0 ⟨4294967296, true⟩
      = (-1, ⟨4294967296, true⟩) := by
  decide

/-! ## Critical-section engine: derived and bitwise operations -/

/-- C7: for every delta `d`, on two counters initialised to the same value `v`,
`arch_atomic_add_return(d)` returns `arch_atomic_fetch_add(d) + d`, which is `v + d`
reduced to 32-bit two's complement, and both calls leave the same counter value (and
the same interrupt-enable state). -/
theorem add_return_eq_fetch_add_plus_delta (v d : Int) (irq : Bool) :
    (arch_atomic_add_return d ⟨v, irq⟩).1
      = int_add (arch_atomic_fetch_add d ⟨v, irq⟩).1 d ∧
    (arch_atomic_add_return d ⟨v, irq⟩).1 = (v + d + 2147483648) % 4294967296 - 2147483648 ∧
    (arch_atomic_add_return d ⟨v, irq⟩).2 = (arch_atomic_fetch_add d ⟨v, irq⟩).2 ∧
    (arch_atomic_add_return d ⟨v, irq⟩).2.counter = to_int (v + d) := by
  refine ⟨rfl, ?_, rfl, rfl⟩
  show to_int (v + d) = _
  rw [to_int_eq]

/-- C8: for every initial value `v` and every `i`: `arch_atomic_fetch_sub(i)` returns
`v`; `arch_atomic_sub_return(i)` is `arch_atomic_add_return(-i)` and returns `v - i`;
both leave the counter at `v - i`; all reduced to 32-bit two's complement.  For
`i = INT_MIN` the negation `-i` is `INT_MIN` again and the same holds. -/
theorem sub_forms_contract (v i : Int) (irq : Bool) :
    (arch_atomic_fetch_sub i ⟨v, irq⟩).1 = v ∧
    arch_atomic_sub_return i ⟨v, irq⟩ = arch_atomic_add_return (int_neg i) ⟨v, irq⟩ ∧
    (arch_atomic_sub_return i ⟨v, irq⟩).1 = to_int (v - i) ∧
    (arch_atomic_fetch_sub i ⟨v, irq⟩).2.counter = to_int (v - i) ∧
    (arch_atomic_sub_return i ⟨v, irq⟩).2.counter = to_int (v - i) ∧
    int_neg INT_MIN = INT_MIN ∧
    (arch_atomic_fetch_sub INT_MIN ⟨v, irq⟩).1 = v ∧
    (arch_atomic_sub_return INT_MIN ⟨v, irq⟩).1 = to_int (v - INT_MIN) ∧
    (arch_atomic_sub_return INT_MIN ⟨v, irq⟩).2.counter = to_int (v - INT_MIN) := by
  have key : ∀ j : Int, to_int (v + to_int (-j)) = to_int (v - j) := by
    intro j
    simp only [to_int_eq]
    omega
  refine ⟨rfl, rfl, ?_, ?_, ?_, by decide, rfl, ?_, ?_⟩
  · exact key i
  · exact key i
  · exact key i
  · exact key INT_MIN
  · exact key INT_MIN

/-- C9: for values `v` and `i` of type `int`: `arch_atomic_fetch_and`,
`arch_atomic_fetch_or` and `arch_atomic_fetch_xor` return `v` and leave the counter at
`v & i`, `v | i`, `v ^ i`, which are values of type `int`; and `arch_atomic_add`,
`arch_atomic_sub`, `arch_atomic_and`, `arch_atomic_or`, `arch_atomic_xor` leave what
their fetch-returning counterparts leave: `v + i` and `v - i` reduced to 32-bit two's
complement, `v & i`, `v | i`, `v ^ i`. -/
theorem fetch_bitwise_and_void_ops_contract (v i : Int) (irq : Bool)
    (hv : is_int v) (hi : is_int i) :
    ((arch_atomic_fetch_and i ⟨v, irq⟩).1 = v ∧
      (arch_atomic_fetch_and i ⟨v, irq⟩).2.counter = Int.land v i ∧
      is_int (arch_atomic_fetch_and i ⟨v, irq⟩).2.counter) ∧
    ((arch_atomic_fetch_or i ⟨v, irq⟩).1 = v ∧
      (arch_atomic_fetch_or i ⟨v, irq⟩).2.counter = Int.lor v i ∧
      is_int (arch_atomic_fetch_or i ⟨v, irq⟩).2.counter) ∧
    ((arch_atomic_fetch_xor i ⟨v, irq⟩).1 = v ∧
      (arch_atomic_fetch_xor i ⟨v, irq⟩).2.counter = Int.xor v i ∧
      is_int (arch_atomic_fetch_xor i ⟨v, irq⟩).2.counter) ∧
    (arch_atomic_add i ⟨v, irq⟩ = (arch_atomic_fetch_add i ⟨v, irq⟩).2 ∧
      (arch_atomic_add i ⟨v, irq⟩).counter = to_int (v + i)) ∧
    (arch_atomic_sub i ⟨v, irq⟩ = (arch_atomic_fetch_sub i ⟨v, irq⟩).2 ∧
      (arch_atomic_sub i ⟨v, irq⟩).counter = to_int (v - i)) ∧
    (arch_atomic_and i ⟨v, irq⟩ = (arch_atomic_fetch_and i ⟨v, irq⟩).2 ∧
      (arch_atomic_and i ⟨v, irq⟩).counter = Int.land v i) ∧
    (arch_atomic_or i ⟨v, irq⟩ = (arch_atomic_fetch_or i ⟨v, irq⟩).2 ∧
      (arch_atomic_or i ⟨v, irq⟩).counter = Int.lor v i) ∧
    (arch_atomic_xor i ⟨v, irq⟩ = (arch_atomic_fetch_xor i ⟨v, irq⟩).2 ∧
      (arch_atomic_xor i ⟨v, irq⟩).counter = Int.xor v i) := by
  have hsub : to_int (v - i) = to_int (v + to_int (-i)) := by
    simp only [to_int_eq]
    omega
  refine ⟨⟨rfl, rfl, is_int_land v i hv hi⟩, ⟨rfl, rfl, is_int_lor v i hv hi⟩,
    ⟨rfl, rfl, is_int_xor v i hv hi⟩, ⟨rfl, rfl⟩, ⟨?_, rfl⟩, ⟨rfl, rfl⟩, ⟨rfl, rfl⟩, ⟨rfl, rfl⟩⟩
  show (⟨to_int (v - i), irq⟩ : State) = ⟨to_int (v + to_int (-i)), irq⟩
  rw [hsub]

/-- The contract of the bitwise and the fire-and-forget operations at `v = 12`,
`i = 10`. -/
theorem fetch_bitwise_and_void_ops_contract_witness :
    is_int 12 ∧ is_int 10 ∧
    (arch_atomic_fetch_and 10 ⟨12, true⟩).1 = 12 ∧
    (arch_atomic_fetch_and 10 ⟨12, true⟩).2.counter = Int.land 12 10 ∧
    is_int (arch_atomic_fetch_and 10 ⟨12, true⟩).2.counter :=
  ⟨by decide, by decide,
    (fetch_bitwise_and_void_ops_contract 12 10 true (by decide) (by decide)).1⟩

/-! ## Conditional engine: placement of the fence -/

/-- C10: on a 32-bit counter holding `v`, on a hart of either register width, each of
the four conditional operations executes, after its load, either nothing more (the
path where the guard fails: no store, no fence, the counter stays at `v`) or a store
followed by `fence rw, rw` (the path where it stores a new value).  The guard of
`_arch_atomic_fetch_add_unless` fails when `v = u`, that of
`_arch_atomic_inc_unless_negative` when `v < 0`, that of
`_arch_atomic_dec_unless_positive` when `v > 0`, and that of
`_arch_atomic_dec_if_positive` when the decrement computed in the register is
negative.  The operands `a` and `u` are any register contents. -/
theorem full_fence_exactly_after_store (xl : Xlen) (p0 rc0 v a u : Int) (irq : Bool)
    (hv : is_int v) :
    ((_arch_atomic_fetch_add_unless xl 32 p0 rc0 ⟨v, irq⟩ a u Sfx.w).events,
      (_arch_atomic_fetch_add_unless xl 32 p0 rc0 ⟨v, irq⟩ a u Sfx.w).state.counter)
      = (if v = u then ([Event.load], v)
         else ([Event.load, Event.store (to_int (v + a)),
                Event.fence FenceSet.rw FenceSet.rw], to_int (v + a))) ∧
    ((_arch_atomic_inc_unless_negative xl 32 p0 rc0 ⟨v, irq⟩ Sfx.w).events,
      (_arch_atomic_inc_unless_negative xl 32 p0 rc0 ⟨v, irq⟩ Sfx.w).state.counter)
      = (if v < 0 then ([Event.load], v)
         else ([Event.load, Event.store (to_int (v + 1)),
                Event.fence FenceSet.rw FenceSet.rw], to_int (v + 1))) ∧
    ((_arch_atomic_dec_unless_positive xl 32 p0 rc0 ⟨v, irq⟩ Sfx.w).events,
      (_arch_atomic_dec_unless_positive xl 32 p0 rc0 ⟨v, irq⟩ Sfx.w).state.counter)
      = (if 0 < v then ([Event.load], v)
         else ([Event.load, Event.store (to_int (v - 1)),
                Event.fence FenceSet.rw FenceSet.rw], to_int (v - 1))) ∧
    ((_arch_atomic_dec_if_positive xl 32 p0 rc0 ⟨v, irq⟩ Sfx.w).events,
      (_arch_atomic_dec_if_positive xl 32 p0 rc0 ⟨v, irq⟩ Sfx.w).state.counter)
      = (if sext xl.bits (v - 1) < 0 then ([Event.load], v)
         else ([Event.load, Event.store (to_int (v - 1)),
                Event.fence FenceSet.rw FenceSet.rw], to_int (v - 1))) := by
  have hl : loaded xl ⟨v, irq⟩ = v := loaded_of_is_int xl ⟨v, irq⟩ hv
  have hst : ∀ x : Int, sext 32 (sext xl.bits x) = to_int x := by
    intro x
    cases xl
    · simp only [Xlen.bits, to_int, sext32_eq]; omega
    · simp only [Xlen.bits, to_int, sext32_eq, sext64_eq]; omega
  refine ⟨?_, ?_, ?_, ?_⟩
  · simp only [_arch_atomic_fetch_add_unless, run_fetch_add_unless, hl]
    by_cases h : v = u
    · simp [h]
    · simp [h, hst, store_word_32]
  · simp only [_arch_atomic_inc_unless_negative, run_inc_unless_negative, hl]
    by_cases h : v < 0
    · simp [h]
    · simp [h, hst, store_word_32]
  · simp only [_arch_atomic_dec_unless_positive, run_dec_unless_positive, hl]
    by_cases h : 0 < v
    · simp [h]
    · simp [h, hst, store_word_32, sub_eq_add_neg]
  · simp only [_arch_atomic_dec_if_positive, run_dec_if_positive, hl, ← sub_eq_add_neg]
    by_cases h : sext xl.bits (v - 1) < 0
    · simp [h]
    · simp [h, hst, store_word_32]

/-- The events of `_arch_atomic_fetch_add_unless` on a counter at 7 with delta 3 and
sentinel 0, on a 64-bit hart. -/
theorem full_fence_exactly_after_store_witness :
    is_int 7 ∧
    ((_arch_atomic_fetch_add_unless Xlen.rv64 32 0 0 ⟨7, true⟩ 3 0 Sfx.w).events,
      (_arch_atomic_fetch_add_unless Xlen.rv64 32 0 0 ⟨7, true⟩ 3 0 Sfx.w).state.counter)
      = (if (7 : Int) = 0 then ([Event.load], 7)
         else ([Event.load, Event.store (to_int (7 + 3)),
                Event.fence FenceSet.rw FenceSet.rw], to_int (7 + 3))) :=
  ⟨by decide,
    (full_fence_exactly_after_store Xlen.rv64 0 0 7 3 0 true (by decide)).1⟩


/-! ## Interrupt-enable state across an operation -/

/-- C13: for every operation of both engines, every counter value and every
interrupt-enable state at entry, the interrupt-enable state on return is the state
at entry; for the conditional operations this covers the storing path and the abort
path, a hart of either register width, and the 64-bit forms. -/
theorem irq_state_on_return_is_state_at_entry (xl : Xlen) (p0 rc0 v i a u : Int)
    (irq : Bool) :
    ((arch_atomic_add i ⟨v, irq⟩).irq_enabled = irq ∧
      (arch_atomic_sub i ⟨v, irq⟩).irq_enabled = irq ∧
      (arch_atomic_and i ⟨v, irq⟩).irq_enabled = irq ∧
      (arch_atomic_or i ⟨v, irq⟩).irq_enabled = irq ∧
      (arch_atomic_xor i ⟨v, irq⟩).irq_enabled = irq) ∧
    ((arch_atomic_fetch_add i ⟨v, irq⟩).2.irq_enabled = irq ∧
      (arch_atomic_fetch_sub i ⟨v, irq⟩).2.irq_enabled = irq ∧
      (arch_atomic_fetch_and i ⟨v, irq⟩).2.irq_enabled = irq ∧
      (arch_atomic_fetch_or i ⟨v, irq⟩).2.irq_enabled = irq ∧
      (arch_atomic_fetch_xor i ⟨v, irq⟩).2.irq_enabled = irq ∧
      (arch_atomic_add_return i ⟨v, irq⟩).2.irq_enabled = irq ∧
      (arch_atomic_sub_return i ⟨v, irq⟩).2.irq_enabled = irq) ∧
    ((arch_atomic_fetch_add_unless xl p0 rc0 ⟨v, irq⟩ a u).2.irq_enabled = irq ∧
      (arch_atomic_inc_unless_negative xl p0 rc0 ⟨v, irq⟩).2.irq_enabled = irq ∧
      (arch_atomic_dec_unless_positive xl p0 rc0 ⟨v, irq⟩).2.irq_enabled = irq ∧
      (arch_atomic_dec_if_positive xl p0 rc0 ⟨v, irq⟩).2.irq_enabled = irq) ∧
    ((arch_atomic64_fetch_add_unless p0 rc0 ⟨v, irq⟩ a u).2.irq_enabled = irq ∧
      (arch_atomic64_inc_unless_negative p0 rc0 ⟨v, irq⟩).2.irq_enabled = irq ∧
      (arch_atomic64_dec_unless_positive p0 rc0 ⟨v, irq⟩).2.irq_enabled = irq ∧
      (arch_atomic64_dec_if_positive p0 rc0 ⟨v, irq⟩).2.irq_enabled = irq) :=
  ⟨⟨rfl, rfl, rfl, rfl, rfl⟩, ⟨rfl, rfl, rfl, rfl, rfl, rfl, rfl⟩, ⟨rfl, rfl, rfl, rfl⟩,
    ⟨rfl, rfl, rfl, rfl⟩⟩

/-! ## Critical-section engine under an interrupt -/

theorem to_int_add_to_int_left (x y : Int) : to_int (to_int x + y) = to_int (x + y) := by
  simp only [to_int_eq]
  omega

/-- C11: on a single hart where an interrupt is taken only while interrupts are
enabled, let `arch_atomic_fetch_add(i)` run step by step on a counter at `v`,
entered with interrupts enabled, and let an interrupt whose handler calls
`arch_atomic_fetch_add(j)` on the same counter be raised at any of the six points of
the operation.  Then the three accesses of the outer operation to the counter are
made with interrupts masked, the handler has run by the end, the final counter is
`v + i + j` reduced to 32-bit two's complement, and interrupts are enabled again.
An operation entered with interrupts masked returns with interrupts masked; in that
case an interrupt raised meanwhile stays pending and the counter is at `v + i`.
Without an interrupt the steps give what `arch_atomic_fetch_add` gives.  For every
operator, in the fetch-returning and in the fire-and-forget form, and every handler,
the final state is that of the handler followed by the operation or of the
operation followed by the handler. -/
theorem nested_fetch_add_loses_no_update (v i j : Int) (k : Fin 6) (f0 : Bool)
    (r0 t0 : Int) :
    run_cs_irq int_add i (fetch_add_handler j) k.val 0 false fetch_op_steps
        ⟨f0, r0, t0, []⟩ ⟨v, true⟩
      = (false,
          ⟨true, if k.val = 0 then to_int (v + j) else v,
            if k.val = 0 then to_int (v + j) else v, [true, true, true]⟩,
          ⟨to_int (v + i + j), true⟩) ∧
    (arch_atomic_fetch_add j ⟨v, false⟩).2.irq_enabled = false ∧
    (arch_atomic_add j ⟨v, false⟩).irq_enabled = false ∧
    run_cs_irq int_add i (fetch_add_handler j) k.val 0 false fetch_op_steps
        ⟨f0, r0, t0, []⟩ ⟨v, false⟩
      = (true, ⟨false, v, v, [true, true, true]⟩, ⟨to_int (v + i), false⟩) ∧
    run_cs_irq int_add i (fetch_add_handler j) 6 0 false fetch_op_steps
        ⟨f0, r0, t0, []⟩ ⟨v, true⟩
      = (false, ⟨true, (arch_atomic_fetch_add i ⟨v, true⟩).1, v, [true, true, true]⟩,
          (arch_atomic_fetch_add i ⟨v, true⟩).2) ∧
    (∀ (op : Int → Int → Int) (h : State → State),
      (run_cs_irq op i h k.val 0 false fetch_op_steps ⟨f0, r0, t0, []⟩ ⟨v, true⟩).2.2
        = if k.val = 0 then (ATOMIC_FETCH_OP op i (trap h ⟨v, true⟩)).2
          else trap h (ATOMIC_FETCH_OP op i ⟨v, true⟩).2) ∧
    (∀ (op : Int → Int → Int) (h : State → State) (k' : Fin 5),
      (run_cs_irq op i h k'.val 0 false atomic_op_steps ⟨f0, r0, t0, []⟩ ⟨v, true⟩).2.2
        = if k'.val = 0 then ATOMIC_OP op i (trap h ⟨v, true⟩)
          else trap h (ATOMIC_OP op i ⟨v, true⟩)) := by
  have h1 : to_int (to_int (v + j) + i) = to_int (v + i + j) := by
    rw [to_int_add_to_int_left]; congr 1; ring
  have h2 : to_int (to_int (v + i) + j) = to_int (v + i + j) := to_int_add_to_int_left _ _
  refine ⟨?_, rfl, rfl, ?_, ?_, ?_, ?_⟩
  · fin_cases k <;>
      simp [run_cs_irq, fetch_op_steps, cs_step, take_irq, trap, fetch_add_handler,
        arch_atomic_fetch_add, raw_local_irq_save, raw_local_irq_restore, int_add, h1, h2]
  · fin_cases k <;>
      simp [run_cs_irq, fetch_op_steps, cs_step, take_irq, trap, fetch_add_handler,
        arch_atomic_fetch_add, raw_local_irq_save, raw_local_irq_restore, int_add]
  · simp [run_cs_irq, fetch_op_steps, cs_step, take_irq, trap, fetch_add_handler,
      arch_atomic_fetch_add, raw_local_irq_save, raw_local_irq_restore, int_add]
  · intro op h
    fin_cases k <;>
      simp [run_cs_irq, fetch_op_steps, cs_step, take_irq, trap, ATOMIC_FETCH_OP,
        raw_local_irq_save, raw_local_irq_restore]
  · intro op h k'
    fin_cases k' <;>
      simp [run_cs_irq, atomic_op_steps, cs_step, take_irq, trap, ATOMIC_OP,
        raw_local_irq_save, raw_local_irq_restore]

/-! ## Conditional engine under an interrupt -/

/-- An instruction other than `lw` acts on the registers and the events, and
branches, without regard to memory. -/
theorem step_of_not_lw (xl : Xlen) (cw : Nat) (i : Instr) (s s' : AsmState)
    (hi : ∀ rd, i ≠ Instr.lw rd) (hr : s.regs = s'.regs) (he : s.events = s'.events) :
    (step xl cw i s).2 = (step xl cw i s').2 ∧
    (step xl cw i s).1.regs = (step xl cw i s').1.regs ∧
    (step xl cw i s).1.events = (step xl cw i s').1.events := by
  cases i with
  | lw rd => exact absurd rfl (hi rd)
  | _ => simp [step, hr, he]

/-- Behind the load, the registers and the events of an interrupted run are those
of the undisturbed run. -/
theorem exec_irq_regs_events (xl : Xlen) (cw : Nat) (handler : State → State) (irq : Bool)
    (arrival : Nat) (prog : List Instr) (hp : ∀ i ∈ prog, ∀ rd, i ≠ Instr.lw rd) :
    ∀ (n : Nat) (pending : Bool) (br : Option Nat) (s s' : AsmState),
      s.regs = s'.regs → s.events = s'.events →
      (exec_irq xl cw handler irq arrival n pending br prog s).2.regs
          = (exec xl cw br prog s').regs ∧
      (exec_irq xl cw handler irq arrival n pending br prog s).2.events
          = (exec xl cw br prog s').events := by
  induction prog with
  | nil =>
    intro n pending br s s' hr he
    cases br <;> simp [exec_irq, exec, hr, he]
  | cons i rest ih =>
    intro n pending br s s' hr he
    have hrest : ∀ i ∈ rest, ∀ rd, i ≠ Instr.lw rd :=
      fun x hx => hp x (List.mem_cons_of_mem i hx)
    cases br with
    | some l =>
      by_cases hl : i = Instr.label l
      · simp only [exec_irq, exec, hl, if_true]
        exact ih hrest n pending none s s' hr he
      · simp only [exec_irq, exec, hl, if_false]
        exact ih hrest n pending (some l) s s' hr he
    | none =>
      simp only [exec_irq, exec]
      have hs := step_of_not_lw xl cw i
        { s with mem := (take_irq handler (pending || decide (n = arrival))
            ⟨s.mem, irq⟩).2.counter } s'
        (hp i (List.mem_cons_self i rest)) hr he
      rw [hs.1]
      exact ih hrest _ _ _ _ _ hs.2.1 hs.2.2

/-- With interrupts masked, or once the interrupt has been taken, the interrupted
run is the undisturbed run. -/
theorem exec_irq_undisturbed (xl : Xlen) (cw : Nat) (handler : State → State) (irq : Bool)
    (arrival : Nat) (prog : List Instr) :
    ∀ (n : Nat) (pending : Bool) (br : Option Nat) (s : AsmState),
      irq = false ∨ (pending = false ∧ arrival < n) →
      (exec_irq xl cw handler irq arrival n pending br prog s).2 = exec xl cw br prog s := by
  induction prog with
  | nil =>
    intro n pending br s h
    rcases h with h | ⟨h1, h2⟩
    · cases br <;> simp [exec_irq, exec, take_irq, h]
    · have hne : ¬ n = arrival := by omega
      cases br <;> simp [exec_irq, exec, take_irq, h1, hne]
  | cons i rest ih =>
    intro n pending br s h
    cases br with
    | some l =>
      by_cases hl : i = Instr.label l
      · simp only [exec_irq, exec, hl, if_true]
        exact ih n pending none s h
      · simp only [exec_irq, exec, hl, if_false]
        exact ih n pending (some l) s h
    | none =>
      rcases h with h | ⟨h1, h2⟩
      · have ht : take_irq handler (pending || decide (n = arrival)) ⟨s.mem, irq⟩
            = (pending || decide (n = arrival), ⟨s.mem, irq⟩) := by
          simp [take_irq, h]
        simp only [exec_irq, exec, ht]
        exact ih _ _ _ _ (Or.inl h)
      · have hne : ¬ n = arrival := by omega
        have ht : take_irq handler (pending || decide (n = arrival)) ⟨s.mem, irq⟩
            = (false, ⟨s.mem, irq⟩) := by
          simp [take_irq, h1, hne]
        simp only [exec_irq, exec, ht]
        exact ih _ _ _ _ (Or.inr ⟨rfl, by omega⟩)


/-- Taking an interrupt leaves the interrupt-enable state as it was. -/
theorem take_irq_irq_enabled (handler : State → State) (pending : Bool) (s : State) :
    (take_irq handler pending s).2.irq_enabled = s.irq_enabled := by
  unfold take_irq
  split <;> rfl

/-- What an interrupted conditional operation returns and what it logs are what the
undisturbed operation returns and logs on the counter value present at the load. -/
theorem run_asm_irq_outputs (xl : Xlen) (cw : Nat) (rest : List Instr) (p0 rc0 a u : Int)
    (v : State) (handler : State → State) (arrival : Nat)
    (hp : ∀ i ∈ rest, ∀ rd, i ≠ Instr.lw rd) :
    (run_asm_irq xl cw (Instr.lw Reg.p :: rest) p0 rc0 v a u handler arrival).2.prev
      = (run_asm xl cw (Instr.lw Reg.p :: rest) p0 rc0 (at_load handler arrival v) a u).prev ∧
    (run_asm_irq xl cw (Instr.lw Reg.p :: rest) p0 rc0 v a u handler arrival).2.rc
      = (run_asm xl cw (Instr.lw Reg.p :: rest) p0 rc0 (at_load handler arrival v) a u).rc ∧
    (run_asm_irq xl cw (Instr.lw Reg.p :: rest) p0 rc0 v a u handler arrival).2.events
      = (run_asm xl cw (Instr.lw Reg.p :: rest) p0 rc0 (at_load handler arrival v) a u).events := by
  have h := exec_irq_regs_events xl cw handler v.irq_enabled arrival rest hp 1
    (take_irq handler (false || decide (0 = arrival)) ⟨v.counter, v.irq_enabled⟩).1
    (step xl cw (Instr.lw Reg.p)
      { ( ⟨⟨p0, rc0, a, u⟩, v.counter, []⟩ : AsmState) with
        mem := (take_irq handler (false || decide (0 = arrival))
          ⟨v.counter, v.irq_enabled⟩).2.counter }).2
    (step xl cw (Instr.lw Reg.p)
      { ( ⟨⟨p0, rc0, a, u⟩, v.counter, []⟩ : AsmState) with
        mem := (take_irq handler (false || decide (0 = arrival))
          ⟨v.counter, v.irq_enabled⟩).2.counter }).1
    (step xl cw (Instr.lw Reg.p)
      ⟨⟨p0, rc0, a, u⟩, (at_load handler arrival v).counter, []⟩).1
    (by simp [step, at_load]) (by simp [step])
  refine ⟨?_, ?_, ?_⟩
  · simpa [run_asm_irq, run_asm, exec_irq, exec, step] using congrArg Regs.p h.1
  · simpa [run_asm_irq, run_asm, exec_irq, exec, step] using congrArg Regs.rc h.1
  · simpa [run_asm_irq, run_asm, exec_irq, exec, step] using h.2

/-- Entered with interrupts masked, an interrupted conditional operation is the
undisturbed operation. -/
theorem run_asm_irq_masked (xl : Xlen) (cw : Nat) (prog : List Instr) (p0 rc0 a u : Int)
    (v : State) (handler : State → State) (arrival : Nat) (hm : v.irq_enabled = false) :
    (run_asm_irq xl cw prog p0 rc0 v a u handler arrival).2
      = run_asm xl cw prog p0 rc0 v a u := by
  have h := exec_irq_undisturbed xl cw handler v.irq_enabled arrival prog 0 false none
    ⟨⟨p0, rc0, a, u⟩, v.counter, []⟩ (Or.inl hm)
  simp only [run_asm_irq, run_asm, h]

/-- When the interrupt is raised before the first instruction, an interrupted
conditional operation is the undisturbed operation on the counter present at the
load. -/
theorem run_asm_irq_before_load (xl : Xlen) (cw : Nat) (i : Instr) (rest : List Instr)
    (p0 rc0 a u : Int) (v : State) (handler : State → State) :
    (run_asm_irq xl cw (i :: rest) p0 rc0 v a u handler 0).2
      = run_asm xl cw (i :: rest) p0 rc0 (at_load handler 0 v) a u := by
  obtain ⟨c, e⟩ := v
  cases e
  · have hw : at_load handler 0 ⟨c, false⟩ = ⟨c, false⟩ := by
      simp [at_load, take_irq]
    rw [hw]
    exact run_asm_irq_masked xl cw (i :: rest) p0 rc0 a u ⟨c, false⟩ handler 0 rfl
  · have hw : at_load handler 0 ⟨c, true⟩ = trap handler ⟨c, true⟩ := by
      simp [at_load, take_irq]
    have h := exec_irq_undisturbed xl cw handler true 0 rest 1 false
      (step xl cw i ⟨⟨p0, rc0, a, u⟩, (handler ⟨c, false⟩).counter, []⟩).2
      (step xl cw i ⟨⟨p0, rc0, a, u⟩, (handler ⟨c, false⟩).counter, []⟩).1
      (Or.inr ⟨rfl, by omega⟩)
    simp [run_asm_irq, run_asm, exec_irq, exec, take_irq, hw, h, raw_local_save_flags,
      raw_local_irq_restore, trap]

/-- C12: the conditional operations do not protect their read-compute-store
sequence.  The macros call `raw_local_save_flags`, which does not mask, so with
interrupts enabled at entry an interrupt whose handler calls
`arch_atomic_fetch_add(10)` is taken right after the `lw`.  The operation loads once,
does not repeat its sequence, and stores the value computed from the load made before
the handler ran: the counter ends at that value and the handler's addition is gone.
Had the handler run before the `lw`, or behind the `sw`, the counter of
`_arch_atomic_fetch_add_unless` would end at 11; entered with interrupts masked, the
same operation keeps the interrupt pending and nothing is lost. -/
theorem conditional_op_overwrites_handler_update :
    run_asm_irq Xlen.rv32 32 fetch_add_unless_asm 0 0 ⟨0, true⟩ 1 (-1) (fetch_add_handler 10) 1
      = (false, ⟨0, 0, ⟨1, true⟩,
          [Event.load, Event.store 1, Event.fence FenceSet.rw FenceSet.rw]⟩) ∧
    run_asm_irq Xlen.rv32 32 inc_unless_negative_asm 0 0 ⟨0, true⟩ 0 0 (fetch_add_handler 10) 1
      = (false, ⟨0, 0, ⟨1, true⟩,
          [Event.load, Event.store 1, Event.fence FenceSet.rw FenceSet.rw]⟩) ∧
    run_asm_irq Xlen.rv32 32 dec_unless_positive_asm 0 0 ⟨0, true⟩ 0 0 (fetch_add_handler 10) 1
      = (false, ⟨0, 0, ⟨-1, true⟩,
          [Event.load, Event.store (-1), Event.fence FenceSet.rw FenceSet.rw]⟩) ∧
    run_asm_irq Xlen.rv32 32 dec_if_positive_asm 0 0 ⟨5, true⟩ 0 0 (fetch_add_handler 10) 1
      = (false, ⟨5, 0, ⟨4, true⟩,
          [Event.load, Event.store 4, Event.fence FenceSet.rw FenceSet.rw]⟩) ∧
    (trap (fetch_add_handler 10) ⟨0, true⟩).counter = 10 ∧
    raw_local_save_flags ⟨0, true⟩ = true ∧
    (raw_local_irq_save ⟨0, true⟩).2.irq_enabled = false ∧
    (run_asm_irq Xlen.rv32 32 fetch_add_unless_asm 0 0 ⟨0, true⟩ 1 (-1)
      (fetch_add_handler 10) 0).2.state.counter = 11 ∧
    (run_asm_irq Xlen.rv32 32 fetch_add_unless_asm 0 0 ⟨0, true⟩ 1 (-1)
      (fetch_add_handler 10) 4).2.state.counter = 11 ∧
    run_asm_irq Xlen.rv32 32 fetch_add_unless_asm 0 0 ⟨0, false⟩ 1 (-1) (fetch_add_handler 10) 1
      = (true, ⟨0, 0, ⟨1, false⟩,
          [Event.load, Event.store 1, Event.fence FenceSet.rw FenceSet.rw]⟩) := by
  decide

/-- Each conditional operation makes one pass, with one load and no retry.  Whenever
an interrupt is raised during the operation and whatever its handler does, the value returned and the events of the operation are those of the
undisturbed operation on the counter present at the load, and the value bound to
`_prev` is the value loaded; the events are one load, or one load, one store and the
fence.  When nothing modifies the counter between the load and
the store, because interrupts are masked at entry or because the interrupt is raised
before the first instruction, the operation as a whole, final counter included, is
the undisturbed operation on the counter present at the load. -/
theorem conditional_op_single_pass (xl : Xlen) (cw : Nat) (prog : List Instr)
    (p0 rc0 a u c : Int) (irq : Bool) (handler : State → State) (arrival : Nat)
    (hprog : prog ∈ conditional_asm) :
    ((run_asm_irq xl cw prog p0 rc0 ⟨c, irq⟩ a u handler arrival).2.prev
        = (run_asm xl cw prog p0 rc0 (at_load handler arrival ⟨c, irq⟩) a u).prev ∧
      (run_asm_irq xl cw prog p0 rc0 ⟨c, irq⟩ a u handler arrival).2.rc
        = (run_asm xl cw prog p0 rc0 (at_load handler arrival ⟨c, irq⟩) a u).rc ∧
      (run_asm_irq xl cw prog p0 rc0 ⟨c, irq⟩ a u handler arrival).2.events
        = (run_asm xl cw prog p0 rc0 (at_load handler arrival ⟨c, irq⟩) a u).events) ∧
    (run_asm_irq xl cw prog p0 rc0 ⟨c, irq⟩ a u handler arrival).2.prev
      = loaded xl (at_load handler arrival ⟨c, irq⟩) ∧
    List.count Event.load (run_asm_irq xl cw prog p0 rc0 ⟨c, irq⟩ a u handler arrival).2.events
      = 1 ∧
    ((run_asm_irq xl cw prog p0 rc0 ⟨c, irq⟩ a u handler arrival).2.events = [Event.load] ∨
      ∃ x, (run_asm_irq xl cw prog p0 rc0 ⟨c, irq⟩ a u handler arrival).2.events
        = [Event.load, Event.store x, Event.fence FenceSet.rw FenceSet.rw]) ∧
    (run_asm_irq xl cw prog p0 rc0 ⟨c, false⟩ a u handler arrival).2
      = run_asm xl cw prog p0 rc0 ⟨c, false⟩ a u ∧
    (run_asm_irq xl cw prog p0 rc0 ⟨c, irq⟩ a u handler 0).2
      = run_asm xl cw prog p0 rc0 (at_load handler 0 ⟨c, irq⟩) a u := by
  simp only [conditional_asm, List.mem_cons, List.mem_singleton, List.not_mem_nil,
    or_false] at hprog
  rcases hprog with rfl | rfl | rfl | rfl
  · have hp : ∀ i ∈ fetch_add_unless_asm.tail, ∀ rd, i ≠ Instr.lw rd := by
      intro i hi rd
      simp [fetch_add_unless_asm] at hi
      rcases hi with rfl | rfl | rfl | rfl | rfl | rfl <;> simp
    have h := run_asm_irq_outputs xl cw fetch_add_unless_asm.tail p0 rc0 a u ⟨c, irq⟩
      handler arrival hp
    refine ⟨h, ?_, ?_, ?_, run_asm_irq_masked xl cw _ p0 rc0 a u ⟨c, false⟩ handler arrival rfl,
      run_asm_irq_before_load xl cw _ _ p0 rc0 a u ⟨c, irq⟩ handler⟩
    · have h1 := h.1
      simp only [fetch_add_unless_asm, List.tail_cons] at h1
      rw [← fetch_add_unless_asm, run_fetch_add_unless] at h1
      rw [h1]; split <;> rfl
    · have h3 := h.2.2
      simp only [fetch_add_unless_asm, List.tail_cons] at h3
      rw [← fetch_add_unless_asm, run_fetch_add_unless] at h3
      rw [h3]; split <;> simp
    · have h4 := h.2.2
      simp only [fetch_add_unless_asm, List.tail_cons] at h4
      rw [← fetch_add_unless_asm, run_fetch_add_unless] at h4
      rw [h4]; split <;> simp
  · have hp : ∀ i ∈ inc_unless_negative_asm.tail, ∀ rd, i ≠ Instr.lw rd := by
      intro i hi rd
      simp [inc_unless_negative_asm] at hi
      rcases hi with rfl | rfl | rfl | rfl | rfl | rfl <;> simp
    have h := run_asm_irq_outputs xl cw inc_unless_negative_asm.tail p0 rc0 a u ⟨c, irq⟩
      handler arrival hp
    refine ⟨h, ?_, ?_, ?_, run_asm_irq_masked xl cw _ p0 rc0 a u ⟨c, false⟩ handler arrival rfl,
      run_asm_irq_before_load xl cw _ _ p0 rc0 a u ⟨c, irq⟩ handler⟩
    · have h1 := h.1
      simp only [inc_unless_negative_asm, List.tail_cons] at h1
      rw [← inc_unless_negative_asm, run_inc_unless_negative] at h1
      rw [h1]; split <;> rfl
    · have h3 := h.2.2
      simp only [inc_unless_negative_asm, List.tail_cons] at h3
      rw [← inc_unless_negative_asm, run_inc_unless_negative] at h3
      rw [h3]; split <;> simp
    · have h4 := h.2.2
      simp only [inc_unless_negative_asm, List.tail_cons] at h4
      rw [← inc_unless_negative_asm, run_inc_unless_negative] at h4
      rw [h4]; split <;> simp
  · have hp : ∀ i ∈ dec_unless_positive_asm.tail, ∀ rd, i ≠ Instr.lw rd := by
      intro i hi rd
      simp [dec_unless_positive_asm] at hi
      rcases hi with rfl | rfl | rfl | rfl | rfl | rfl <;> simp
    have h := run_asm_irq_outputs xl cw dec_unless_positive_asm.tail p0 rc0 a u ⟨c, irq⟩
      handler arrival hp
    refine ⟨h, ?_, ?_, ?_, run_asm_irq_masked xl cw _ p0 rc0 a u ⟨c, false⟩ handler arrival rfl,
      run_asm_irq_before_load xl cw _ _ p0 rc0 a u ⟨c, irq⟩ handler⟩
    · have h1 := h.1
      simp only [dec_unless_positive_asm, List.tail_cons] at h1
      rw [← dec_unless_positive_asm, run_dec_unless_positive] at h1
      rw [h1]; split <;> rfl
    · have h3 := h.2.2
      simp only [dec_unless_positive_asm, List.tail_cons] at h3
      rw [← dec_unless_positive_asm, run_dec_unless_positive] at h3
      rw [h3]; split <;> simp
    · have h4 := h.2.2
      simp only [dec_unless_positive_asm, List.tail_cons] at h4
      rw [← dec_unless_positive_asm, run_dec_unless_positive] at h4
      rw [h4]; split <;> simp
  · have hp : ∀ i ∈ dec_if_positive_asm.tail, ∀ rd, i ≠ Instr.lw rd := by
      intro i hi rd
      simp [dec_if_positive_asm] at hi
      rcases hi with rfl | rfl | rfl | rfl | rfl | rfl <;> simp
    have h := run_asm_irq_outputs xl cw dec_if_positive_asm.tail p0 rc0 a u ⟨c, irq⟩
      handler arrival hp
    refine ⟨h, ?_, ?_, ?_, run_asm_irq_masked xl cw _ p0 rc0 a u ⟨c, false⟩ handler arrival rfl,
      run_asm_irq_before_load xl cw _ _ p0 rc0 a u ⟨c, irq⟩ handler⟩
    · have h1 := h.1
      simp only [dec_if_positive_asm, List.tail_cons] at h1
      rw [← dec_if_positive_asm, run_dec_if_positive] at h1
      rw [h1]; split <;> rfl
    · have h3 := h.2.2
      simp only [dec_if_positive_asm, List.tail_cons] at h3
      rw [← dec_if_positive_asm, run_dec_if_positive] at h3
      rw [h3]; split <;> simp
    · have h4 := h.2.2
      simp only [dec_if_positive_asm, List.tail_cons] at h4
      rw [← dec_if_positive_asm, run_dec_if_positive] at h4
      rw [h4]; split <;> simp

/-- The single pass of `_arch_atomic_fetch_add_unless` on a counter at 0 with delta 1
and sentinel `-1`, under an interrupt whose handler adds 10: one load when the
interrupt is taken behind the `lw`, and the undisturbed operation on the counter the
handler left when it is taken before the `lw`. -/
theorem conditional_op_single_pass_witness :
    fetch_add_unless_asm ∈ conditional_asm ∧
    List.count Event.load
      (run_asm_irq Xlen.rv32 32 fetch_add_unless_asm 0 0 ⟨0, true⟩ 1 (-1)
        (fetch_add_handler 10) 1).2.events = 1 ∧
    (run_asm_irq Xlen.rv32 32 fetch_add_unless_asm 0 0 ⟨0, true⟩ 1 (-1)
        (fetch_add_handler 10) 0).2
      = run_asm Xlen.rv32 32 fetch_add_unless_asm 0 0
          (at_load (fetch_add_handler 10) 0 ⟨0, true⟩) 1 (-1) :=
  ⟨by simp [conditional_asm],
    (conditional_op_single_pass Xlen.rv32 32 fetch_add_unless_asm 0 0 1 (-1) 0 true
      (fetch_add_handler 10) 1 (by simp [conditional_asm])).2.2.1,
    (conditional_op_single_pass Xlen.rv32 32 fetch_add_unless_asm 0 0 1 (-1) 0 true
      (fetch_add_handler 10) 1 (by simp [conditional_asm])).2.2.2.2.2⟩

end RiscvAtomic
